import Mathlib

/-!
Shallow embedding of the git-manager repository's core logic
(pkg/git/repository.go and the cmd-layer fan-in), together with proofs
of the specification claims about it.

Strings are modelled as lists of characters (`Str`), and the Go
`strings` package helpers used by the source are re-implemented as
structurally recursive functions so that everything kernel-evaluates.
The git subprocess executor is modelled as a pure oracle
(`GitEnv.exec`) mapping an argument list to either an error or captured
output, exactly the shape of the source's `GitCommandExecutor`
interface; every embedded operation additionally returns the list of
commands it issued to the executor.
-/

namespace GitManager

/-- Decidable equality for `Except`, needed to evaluate closed claims about
fallible operations. -/
instance {α β : Type} [DecidableEq α] [DecidableEq β] : DecidableEq (Except α β) :=
  fun x y =>
    match x, y with
    | .error a, .error b =>
      if h : a = b then isTrue (by rw [h]) else isFalse (by simp [h])
    | .error _, .ok _ => isFalse (by simp)
    | .ok _, .error _ => isFalse (by simp)
    | .ok a, .ok b =>
      if h : a = b then isTrue (by rw [h]) else isFalse (by simp [h])

/-- Strings as lists of characters. -/
abbrev Str := List Char

/-- Convert a Lean string literal to the `Str` representation. -/
def str (s : String) : Str := s.data

/-- Whitespace test used by the Go `strings.TrimSpace` / `fmt.Sscanf` model. -/
def isSpc (c : Char) : Bool :=
  c = ' ' || c = '\t' || c = '\n' || c = '\r'

/-- Go `strings.TrimSpace`: drop whitespace from both ends. -/
def trimSpace (l : Str) : Str :=
  ((l.dropWhile isSpc).reverse.dropWhile isSpc).reverse

/-- Go `strings.HasPrefix`. -/
def hasPrefixL : Str → Str → Bool
  | [], _ => true
  | _ :: _, [] => false
  | p :: ps, c :: cs => p = c && hasPrefixL ps cs

/-- Go `strings.TrimPrefix`. -/
def trimPrefixL (p l : Str) : Str :=
  if hasPrefixL p l then l.drop p.length else l

/-- Go `strings.HasSuffix`. -/
def hasSuffixL (s l : Str) : Bool :=
  hasPrefixL s.reverse l.reverse

/-- Go `strings.TrimSuffix`. -/
def trimSuffixL (s l : Str) : Str :=
  if hasSuffixL s l then l.take (l.length - s.length) else l

/-- Index of the first occurrence of a character (Go `strings.Index` with a
one-character needle). -/
def indexOfChar : Str → Char → Option Nat
  | [], _ => none
  | c :: cs, x => if c = x then some 0 else (indexOfChar cs x).map (· + 1)

/-- Index of the first occurrence of a substring (Go `strings.Index`). -/
def indexOfSub (pat : Str) : Str → Option Nat
  | [] => if pat.isEmpty then some 0 else none
  | c :: cs => if hasPrefixL pat (c :: cs) then some 0 else (indexOfSub pat cs).map (· + 1)

/-- Go `strings.Contains`. -/
def containsSub (pat l : Str) : Bool :=
  (indexOfSub pat l).isSome

/-- Go `strings.Split` with a one-character separator; like Go's, it always
returns at least one piece (`Split("", sep) = [""]`). -/
def splitOnChar (sep : Char) : Str → List Str
  | [] => [[]]
  | c :: cs =>
    if c = sep then [] :: splitOnChar sep cs
    else
      match splitOnChar sep cs with
      | [] => [[c]]
      | h :: t => (c :: h) :: t

/-- Go `strings.Join` with a one-character separator. -/
def joinChar (sep : Char) : List Str → Str
  | [] => []
  | [x] => x
  | x :: xs => x ++ sep :: joinChar sep xs

/-- Numeric value of a run of decimal digits. -/
def natOfDigits (l : Str) : Nat :=
  l.foldl (fun a c => a * 10 + (c.toNat - 48)) 0

/-- The integer scanned by Go's `fmt.Sscanf` verb `%d`: skip whitespace, an
optional sign, then a maximal run of digits; a failed scan leaves the target
at its zero value. -/
def scanDecInt (l : Str) : Int :=
  match l.dropWhile isSpc with
  | '-' :: rest =>
    let ds := rest.takeWhile Char.isDigit
    if ds.isEmpty then 0 else -(natOfDigits ds : Int)
  | '+' :: rest =>
    let ds := rest.takeWhile Char.isDigit
    if ds.isEmpty then 0 else (natOfDigits ds : Int)
  | other =>
    let ds := other.takeWhile Char.isDigit
    if ds.isEmpty then 0 else (natOfDigits ds : Int)

/-- Model of `fmt.Sscanf(s[Index(s,kw):], "kw %d", &x)` as the source uses it
for the `ahead`/`behind` counters: locate the keyword, then scan an integer
after it (0 when the keyword or the integer is absent). -/
def sscanKw (kw si : Str) : Int :=
  match indexOfSub kw si with
  | none => 0
  | some i => scanDecInt (si.drop (i + kw.length))

/-! ## BranchInfo and parseBranchInfo (pkg/git/repository.go) -/

/-- `BranchInfo` from the source: one branch's relationship to its upstream. -/
structure BranchInfo where
  Name : Str := []
  Current : Bool := false
  RemoteTracking : Str := []
  NoRemoteTracking : Bool := false
  RemoteGone : Bool := false
  Ahead : Int := 0
  Behind : Int := 0
deriving DecidableEq

/-- The trim / current-marker / name-extraction stage of `parseBranchInfo`:
returns the current flag, the branch name, and the trimmed remainder of the
line, or nothing for a blank or name-less line. -/
def preprocessLine (line : Str) : Option (Bool × Str × Str) :=
  let l := trimSpace line
  if l.isEmpty then none
  else
    let cur := hasPrefixL (str "* ") l
    let l := if cur then l.drop 2 else trimPrefixL (str "  ") l
    match indexOfChar l ' ' with
    | none => none
    | some i => some (cur, l.take i, trimSpace (l.drop i))

/-- The bracket-extraction stage of `parseBranchInfo`: the text between the
first `[` and the first `]`, provided the `]` comes after the `[`. -/
def bracketContent (rest : Str) : Option Str :=
  match indexOfChar rest '[', indexOfChar rest ']' with
  | some s, some e => if s < e then some ((rest.drop (s + 1)).take (e - s - 1)) else none
  | _, _ => none

/-- `parseBranchInfo` from the source: parse one line of `git branch -vv`
output into a `BranchInfo`, or nothing for blank/malformed lines. -/
def parseBranchInfo (line : Str) : Option BranchInfo :=
  match preprocessLine line with
  | none => none
  | some (cur, name, rest) =>
    match bracketContent rest with
    | none => some { Name := name, Current := cur, NoRemoteTracking := true }
    | some ti =>
      if containsSub (str "gone") ti then
        some { Name := name, Current := cur, RemoteGone := true }
      else
        match indexOfChar ti ':' with
        | some c =>
          let si := ti.drop (c + 1)
          some { Name := name, Current := cur,
                 RemoteTracking := trimSpace (ti.take c),
                 Ahead := sscanKw (str "ahead") si,
                 Behind := sscanKw (str "behind") si }
        | none =>
          some { Name := name, Current := cur, RemoteTracking := trimSpace ti }

/-! ## Executor environment and RepositoryStatus -/

/-- A git command, as the argument list handed to the executor
(the `-C path` scoping inserted by `Execute` is orthogonal to all
control flow and is not modelled). -/
abbrev Cmd := List Str

/-- A pure model of the `GitCommandExecutor` world one repository sees:
whether the repository path exists on disk, and what each git invocation
returns (captured output on success, or an error).  A deterministic oracle
is exactly the shape of the source's test executor double. -/
structure GitEnv where
  pathExists : Bool
  exec : Cmd → Except Unit Str

def cUnc : Cmd := [str "status", str "--porcelain"]
def cBvv : Cmd := [str "branch", str "-vv"]
def cStash : Cmd := [str "stash", str "list"]
def cHead : Cmd := [str "rev-parse", str "--abbrev-ref", str "HEAD"]
def cShowMain : Cmd := [str "show-ref", str "--verify", str "--quiet", str "refs/heads/main"]
def cShowMaster : Cmd := [str "show-ref", str "--verify", str "--quiet", str "refs/heads/master"]
def cMerged (db : Str) : Cmd := [str "branch", str "--merged", db]
def cDelete (b : Str) : Cmd := [str "branch", str "-D", b]
def cFetch (prune : Bool) : Cmd := if prune then [str "fetch", str "--prune"] else [str "fetch"]
def cPull : Cmd := [str "pull", str "--rebase"]
def cCheckout (b : Str) : Cmd := [str "checkout", b]

/-- `RepositoryStatus` from the source (the back-reference to the
repository itself carries no data relevant to any claim and is omitted). -/
structure RepositoryStatus where
  HasUncommittedChanges : Bool := false
  UncommittedChanges : List Str := []
  Branches : List BranchInfo := []
  CurrentBranch : Str := []
  HasBranchesWithoutRemote : Bool := false
  HasBranchesWithRemoteGone : Bool := false
  HasBranchesBehindRemote : Bool := false
  StashCount : Nat := 0
deriving DecidableEq

/-- One step of `getBranchInformation`'s aggregation: append a parsed branch
and update the current-branch name and the three derived flags. -/
def applyBranch (s : RepositoryStatus) (b : BranchInfo) : RepositoryStatus :=
  { s with
    Branches := s.Branches ++ [b]
    CurrentBranch := if b.Current then b.Name else s.CurrentBranch
    HasBranchesWithRemoteGone := s.HasBranchesWithRemoteGone || b.RemoteGone
    HasBranchesWithoutRemote := s.HasBranchesWithoutRemote || b.NoRemoteTracking
    HasBranchesBehindRemote := s.HasBranchesBehindRemote || decide (0 < b.Behind) }

/-- Parse the whole `branch -vv` output into branch records, line by line
(the source aggregates the lines under a mutex; the aggregation is modelled
in listing order, the order the lines are spawned in). -/
def parseBranchLines (out : Str) : List BranchInfo :=
  (splitOnChar '\n' (trimSpace out)).filterMap parseBranchInfo

/-- `Status` from the source: path-existence check, then the uncommitted
/ branch / stash gathers in order, failing if any sub-gather fails.
Returns the status (or an error) together with the issued commands. -/
def Status (env : GitEnv) : Except Unit RepositoryStatus × List Cmd :=
  if env.pathExists = false then (.error (), [])
  else
    match env.exec cUnc with
    | .error _ => (.error (), [cUnc])
    | .ok uout =>
      match env.exec cBvv with
      | .error _ => (.error (), [cUnc, cBvv])
      | .ok bout =>
        match env.exec cStash with
        | .error _ => (.error (), [cUnc, cBvv, cStash])
        | .ok sout =>
          let s0 : RepositoryStatus := {}
          let s1 :=
            if 0 < uout.length then
              { s0 with HasUncommittedChanges := true
                        UncommittedChanges := splitOnChar '\n' (trimSpace uout) }
            else s0
          let s2 := (parseBranchLines bout).foldl applyBranch s1
          let stashes := splitOnChar '\n' (trimSpace sout)
          let s3 :=
            match stashes with
            | [] => s2
            | h :: _ => if h.isEmpty then s2 else { s2 with StashCount := stashes.length }
          (.ok s3, [cUnc, cBvv, cStash])

/-- `GetCurrentBranch` from the source. -/
def GetCurrentBranch (env : GitEnv) : Except Unit Str × List Cmd :=
  (match env.exec cHead with
   | .error _ => .error ()
   | .ok out => .ok (trimSpace out), [cHead])

/-- `GetDefaultBranch` from the source: `main` if its ref exists, else
`master`, else fall back to the current branch. -/
def GetDefaultBranch (env : GitEnv) : Except Unit Str × List Cmd :=
  match env.exec cShowMain with
  | .ok _ => (.ok (str "main"), [cShowMain])
  | .error _ =>
    match env.exec cShowMaster with
    | .ok _ => (.ok (str "master"), [cShowMain, cShowMaster])
    | .error _ =>
      ((GetCurrentBranch env).1, [cShowMain, cShowMaster] ++ (GetCurrentBranch env).2)

/-! ## identifyBranchesToPrune and PruneBranches -/

/-- The merged-branch names extracted from a `branch --merged` listing:
each line trimmed and stripped of a leading current-branch marker. -/
def mergedListing (out : Str) : List Str :=
  (splitOnChar '\n' (trimSpace out)).map (fun mb => trimPrefixL (str "* ") (trimSpace mb))

/-- One iteration of the `identifyBranchesToPrune` loop, accumulating both
the candidate names and the commands issued (the merged listing is fetched
once per examined branch, exactly as in the source). -/
def pruneStep (env : GitEnv) (db : Str) (goneOnly mergedOnly : Bool)
    (acc : List Str × List Cmd) (b : BranchInfo) : List Str × List Cmd :=
  if b.Current || b.Name = db then acc
  else
    let sp := goneOnly && b.RemoteGone
    if mergedOnly then
      let sp' :=
        match env.exec (cMerged db) with
        | .ok out => sp || (mergedListing out).contains b.Name
        | .error _ => sp
      ((if sp' then acc.1 ++ [b.Name] else acc.1), acc.2 ++ [cMerged db])
    else
      ((if sp then acc.1 ++ [b.Name] else acc.1), acc.2)

/-- `identifyBranchesToPrune` from the source. -/
def identifyBranchesToPrune (env : GitEnv) (st : RepositoryStatus)
    (goneOnly mergedOnly : Bool) : Except Unit (List Str) × List Cmd :=
  match GetDefaultBranch env with
  | (.error _, lg) => (.error (), lg)
  | (.ok db, lg) =>
    (.ok (st.Branches.foldl (pruneStep env db goneOnly mergedOnly) ([], [])).1,
     lg ++ (st.Branches.foldl (pruneStep env db goneOnly mergedOnly) ([], [])).2)

/-- The deletion loop of `PruneBranches`: delete candidates in order,
stopping at the first failure (which becomes the returned error). -/
def deleteLoop (env : GitEnv) : List Str → Option Unit × List Cmd
  | [] => (none, [])
  | b :: rest =>
    match env.exec (cDelete b) with
    | .error _ => (some (), [cDelete b])
    | .ok _ => ((deleteLoop env rest).1, cDelete b :: (deleteLoop env rest).2)

/-- `PruneBranches` from the source.  The Go pair `([]string, error)` is
modelled as `(Option (List Str) × Bool)`: the returned list (or `none` for
Go's `nil`) and whether the returned error was non-nil. -/
def PruneBranches (env : GitEnv) (goneOnly mergedOnly dryRun : Bool) :
    (Option (List Str) × Bool) × List Cmd :=
  match Status env with
  | (.error _, lg) => ((none, true), lg)
  | (.ok st, lg) =>
    match identifyBranchesToPrune env st goneOnly mergedOnly with
    | (.error _, lg2) => ((none, true), lg ++ lg2)
    | (.ok bs, lg2) =>
      if !dryRun && !bs.isEmpty then
        ((some bs, (deleteLoop env bs).1.isSome), lg ++ lg2 ++ (deleteLoop env bs).2)
      else
        ((some bs, false), lg ++ lg2)

/-! ## Update -/

/-- The two ways a per-branch update step can fail. -/
inductive BranchErr where
  | checkoutFailed
  | pullFailed
deriving DecidableEq

/-- `BranchUpdateResult` from the source. -/
structure BranchUpdateResult where
  Branch : BranchInfo
  Err : Option BranchErr
deriving DecidableEq

/-- Insert into an association list keyed by `Str`, overwriting an existing
binding — the model of writing to a Go map. -/
def insertAssoc {α : Type} (m : List (Str × α)) (k : Str) (v : α) : List (Str × α) :=
  match m with
  | [] => [(k, v)]
  | (k', v') :: rest => if k' = k then (k, v) :: rest else (k', v') :: insertAssoc rest k v

/-- Lookup in an association list keyed by `Str` — the model of reading a Go map. -/
def lookupAssoc {α : Type} (m : List (Str × α)) (k : Str) : Option α :=
  match m with
  | [] => none
  | (k', v') :: rest => if k' = k then some v' else lookupAssoc rest k

/-- The body of `Update`'s per-branch loop for one parsed branch: the
commands issued for that branch and the map entry recorded for it (`none`
when the branch is skipped for having no live upstream). -/
def processBranch (env : GitEnv) (orig : Str) (b : BranchInfo) :
    List Cmd × Option (Str × BranchUpdateResult) :=
  if b.NoRemoteTracking || b.RemoteGone then ([], none)
  else if b.Behind ≤ 0 then ([], some (b.Name, ⟨b, none⟩))
  else if b.Name = orig then
    match env.exec cPull with
    | .ok _ => ([cPull], some (b.Name, ⟨b, none⟩))
    | .error _ => ([cPull], some (b.Name, ⟨b, some .pullFailed⟩))
  else
    match env.exec (cCheckout b.Name) with
    | .error _ => ([cCheckout b.Name], some (b.Name, ⟨b, some .checkoutFailed⟩))
    | .ok _ =>
      match env.exec cPull with
      | .ok _ => ([cCheckout b.Name, cPull], some (b.Name, ⟨b, none⟩))
      | .error _ => ([cCheckout b.Name, cPull], some (b.Name, ⟨b, some .pullFailed⟩))

/-- Folding `processBranch` over the branch list, accumulating the results
map, the has-errors flag, and the command log. -/
def updateStep (env : GitEnv) (orig : Str)
    (acc : List (Str × BranchUpdateResult) × Bool × List Cmd) (b : BranchInfo) :
    List (Str × BranchUpdateResult) × Bool × List Cmd :=
  match processBranch env orig b with
  | (cmds, none) => (acc.1, acc.2.1, acc.2.2 ++ cmds)
  | (cmds, some (k, v)) => (insertAssoc acc.1 k v, acc.2.1 || v.Err.isSome, acc.2.2 ++ cmds)

/-- `UpdateResult` from the source (minus the repository back-reference);
the branch-name-keyed Go map is an association list. -/
structure UpdateResult where
  BranchUpdateResults : List (Str × BranchUpdateResult)
  HasErrors : Bool
deriving DecidableEq

/-- The error kinds `Update` can return. -/
inductive UpdateErr where
  | currentBranchFailed
  | fetchFailed
  | statusFailed
  | uncommitted
  | branchListFailed
  | restoreFailed
deriving DecidableEq

/-- `Update` from the source.  The Go pair `(*UpdateResult, error)` is
modelled as `Option UpdateResult × Option UpdateErr`, plus the command log. -/
def Update (env : GitEnv) (fetchOnly prune : Bool) :
    (Option UpdateResult × Option UpdateErr) × List Cmd :=
  match GetCurrentBranch env with
  | (.error _, lg) => ((none, some .currentBranchFailed), lg)
  | (.ok orig, lg) =>
    match env.exec (cFetch prune) with
    | .error _ => ((none, some .fetchFailed), lg ++ [cFetch prune])
    | .ok _ =>
      match Status env with
      | (.error _, slg) => ((none, some .statusFailed), lg ++ [cFetch prune] ++ slg)
      | (.ok st, slg) =>
        if st.HasUncommittedChanges then
          ((none, some .uncommitted), lg ++ [cFetch prune] ++ slg)
        else if fetchOnly then
          ((some ⟨[], false⟩, none), lg ++ [cFetch prune] ++ slg)
        else
          match env.exec cBvv with
          | .error _ => ((none, some .branchListFailed), lg ++ [cFetch prune] ++ slg ++ [cBvv])
          | .ok bout =>
            let acc := (parseBranchLines bout).foldl (updateStep env orig) ([], false, [])
            let baseLog := lg ++ [cFetch prune] ++ slg ++ [cBvv] ++ acc.2.2
            if orig.isEmpty then ((some ⟨acc.1, acc.2.1⟩, none), baseLog)
            else
              match env.exec (cCheckout orig) with
              | .error _ =>
                ((some ⟨acc.1, true⟩, some .restoreFailed), baseLog ++ [cCheckout orig])
              | .ok _ => ((some ⟨acc.1, acc.2.1⟩, none), baseLog ++ [cCheckout orig])

/-! ## ParseURL and Clone (pkg/git/repository.go) -/

/-- `Repository` from the source: identity plus local path. -/
structure Repository where
  Host : Str := []
  Organization : Str := []
  Name : Str := []
  Path : Str := []
deriving DecidableEq

/-- `ParseURL` from the source: SSH (`git@host:path/.../name`) and
HTTPS/HTTP (`scheme://host/org/.../name`) forms. -/
def ParseURL (url : Str) : Except Unit Repository :=
  let url := trimSuffixL (str ".git") url
  if hasPrefixL (str "git@") url then
    match splitOnChar ':' url with
    | [p0, p1] =>
      let host := trimPrefixL (str "git@") p0
      let pathParts := splitOnChar '/' p1
      if pathParts.length < 2 then .error ()
      else .ok { Host := host, Organization := pathParts.headD [],
                 Name := pathParts.getLastD [] }
    | _ => .error ()
  else if hasPrefixL (str "https://") url || hasPrefixL (str "http://") url then
    let noProto := trimPrefixL (str "http://") (trimPrefixL (str "https://") url)
    let parts := splitOnChar '/' noProto
    if parts.length < 3 then .error ()
    else .ok { Host := parts.headD [], Organization := (parts.drop 1).headD [],
               Name := parts.getLastD [] }
  else .error ()

/-- `filepath.Join` restricted to the clean, non-empty components `Clone`
joins. -/
def joinPath (xs : List Str) : Str := joinChar '/' xs

/-- The error kinds `Clone` can return. -/
inductive CloneErr where
  | mkdirFailed
  | alreadyExists
  | cloneFailed
deriving DecidableEq

/-- The filesystem/executor facts `Clone` consults: whether creating the
parent directories succeeds, whether the target path already exists, and
whether the `git clone` subprocess succeeds. -/
structure CloneEnv where
  mkdirOk : Bool
  targetExists : Bool
  cloneOk : Bool

/-- `Clone` from the source: the path field is assigned first, then parent
directories are created, then the already-exists check runs, then the clone
command.  Returns the mutated repository value and the error, if any. -/
def Clone (env : CloneEnv) (r : Repository) (rootDir : Str) :
    Repository × Option CloneErr :=
  let r := { r with Path := joinPath [rootDir, r.Host, r.Organization, r.Name] }
  if env.mkdirOk = false then (r, some .mkdirFailed)
  else if env.targetExists then (r, some .alreadyExists)
  else if env.cloneOk then (r, none)
  else (r, some .cloneFailed)

/-! ## The update command's fan-in (cmd/update.go) -/

/-- What travels through `resultChan` in `cmd/update.go`: a possibly-nil
pointer to an update result carrying its repository's path. -/
structure SentResult where
  repoPath : Str
deriving DecidableEq

/-- The fan-in loop of `cmd/update.go`:
`for result := range resultChan { results[result.Repository.Path] = result }`.
Dereferencing a nil result is a runtime panic, modelled as `.error`, which
aborts the collection of every repository's result. -/
def collectUpdateResults (acc : List (Str × SentResult)) :
    List (Option SentResult) → Except Unit (List (Str × SentResult))
  | [] => .ok acc
  | none :: _ => .error ()
  | some r :: rest => collectUpdateResults (insertAssoc acc r.repoPath r) rest

/-! ## Derived notions used by the claims -/

/-- A branch-deletion command, as `PruneBranches` issues them. -/
def isDeleteCmd (c : Cmd) : Bool := c.take 2 = [str "branch", str "-D"]

/-- The bracketed tracking segment `parseBranchInfo` extracts from a line,
if any. -/
def lineTrackInfo (line : Str) : Option Str :=
  match preprocessLine line with
  | none => none
  | some (_, _, rest) => bracketContent rest

/-- The part of a tracking segment before its first `:` (the whole segment
when there is no colon) — the tracking-ref field. -/
def beforeColon (ti : Str) : Str :=
  match indexOfChar ti ':' with
  | some c => ti.take c
  | none => ti

/-- Well-formedness of a branch-listing line, as `git branch -vv` output
satisfies it: when the line carries a bracketed tracking segment, that
segment either reports a gone upstream or names a non-blank tracking ref
before any colon. -/
def wellFormedBranchLine (line : Str) : Bool :=
  match lineTrackInfo line with
  | none => true
  | some ti => containsSub (str "gone") ti || !(trimSpace (beforeColon ti)).isEmpty

/-- How many of the three tracking states
{live tracking ref, no-remote-tracking, remote-gone} a branch record is in. -/
def trackingStateCount (b : BranchInfo) : Nat :=
  (if b.RemoteTracking ≠ [] ∧ b.RemoteGone = false then 1 else 0) +
    (if b.NoRemoteTracking then 1 else 0) + (if b.RemoteGone then 1 else 0)

/-! ## Concrete environments used by closed theorems and witnesses -/

/-- A repository whose working tree has uncommitted changes: its `Update`
returns a nil result together with an error. -/
def envDirty : GitEnv :=
  { pathExists := true
    exec := fun c =>
      if c = cHead then .ok (str "main\n")
      else if c = cFetch false then .ok []
      else if c = cUnc then .ok (str " M file.go")
      else if c = cBvv then .ok (str "* main 1a2b3c msg")
      else if c = cStash then .ok []
      else .error () }

/-- A clean repository on `main` with a gone-remote branch `feat` and a
branch `dev` two commits behind its live upstream. -/
def envA : GitEnv :=
  { pathExists := true
    exec := fun c =>
      if c = cUnc then .ok []
      else if c = cBvv then
        .ok (str "* main 1a2b3c commit msg\n  feat 1a2b3c [origin/feat: gone] msg\n  dev 1a2b3c [origin/dev: behind 2] msg")
      else if c = cStash then .ok []
      else if c = cHead then .ok (str "main\n")
      else if c = cShowMain then .ok []
      else if c = cFetch false then .ok []
      else if c = cPull then .ok []
      else if c = cCheckout (str "dev") then .ok []
      else if c = cCheckout (str "main") then .ok []
      else .error () }

/-- The status `envA` produces. -/
def stA : RepositoryStatus :=
  { Branches :=
      [{ Name := str "main", Current := true, NoRemoteTracking := true },
       { Name := str "feat", RemoteGone := true },
       { Name := str "dev", RemoteTracking := str "origin/dev", Behind := 2 }]
    CurrentBranch := str "main"
    HasBranchesWithRemoteGone := true
    HasBranchesWithoutRemote := true
    HasBranchesBehindRemote := true }

/-- The `dev` branch record of `envA`. -/
def devB : BranchInfo :=
  { Name := str "dev", RemoteTracking := str "origin/dev", Behind := 2 }

/-- The `branch -vv` listing `envA` and `envRestore` return. -/
def boutA : Str :=
  str "* main 1a2b3c commit msg\n  feat 1a2b3c [origin/feat: gone] msg\n  dev 1a2b3c [origin/dev: behind 2] msg"

/-- The update result `envA` produces: `dev` pulled fine, nothing else
recorded. -/
def urA : UpdateResult := ⟨[(str "dev", ⟨devB, none⟩)], false⟩

/-- Like `envA`, except that checking the original branch `main` back out
fails. -/
def envRestore : GitEnv :=
  { pathExists := true
    exec := fun c =>
      if c = cUnc then .ok []
      else if c = cBvv then .ok boutA
      else if c = cStash then .ok []
      else if c = cHead then .ok (str "main\n")
      else if c = cFetch false then .ok []
      else if c = cPull then .ok []
      else if c = cCheckout (str "dev") then .ok []
      else .error () }

/-- A repository identity with a pre-existing `Path` value, for the `Clone`
mutation claims. -/
def rOld : Repository :=
  { Host := str "github.com", Organization := str "octo", Name := str "hello",
    Path := str "/old/path" }

/-- A clone environment whose target path already exists. -/
def envExists : CloneEnv := { mkdirOk := true, targetExists := true, cloneOk := true }

/-! ## Theorems for the claims -/

/-- C6: `parseBranchInfo` applied to the single line
`"* main 1a2b3c [origin/main: ahead 2, behind 1] msg"` returns a
`BranchInfo` with name `main`, current `true`, ahead `2`, behind `1`,
remote-gone `false` and no-remote-tracking `false`. -/
theorem parseBranchInfo_concrete_line :
    parseBranchInfo (str "* main 1a2b3c [origin/main: ahead 2, behind 1] msg") =
      some { Name := str "main", Current := true, RemoteTracking := str "origin/main",
             NoRemoteTracking := false, RemoteGone := false, Ahead := 2, Behind := 1 } := by
  decide

/-- C3: the concurrent update command's fan-in is not nil-safe.  A
repository with uncommitted changes makes `Update` return a nil result
with an error; `cmd/update.go` still sends that nil result into the result
channel, and the collection loop `results[result.Repository.Path] = result`
dereferences it and panics, aborting the result collection of every
sibling repository (here the sibling's already-sent result is lost too). -/
theorem updateCmd_fanIn_nil_deref :
    (Update envDirty false false).1 = (none, some .uncommitted) ∧
    collectUpdateResults [] [some ⟨str "/r/github.com/o/ok-repo"⟩, none] = .error () := by
  decide

/-- C5 (counterexample): for the SSH URL `git@github.com:a/b/c`, whose path
has three slash-separated segments, `ParseURL` returns the FIRST segment
`a` as the organization, not the last segment before the name (`b`) as the
claim states. -/
theorem parseURL_multiseg_org_counterexample :
    ParseURL (str "git@github.com:a/b/c") =
      .ok { Host := str "github.com", Organization := str "a", Name := str "c" } ∧
    ¬(str "a" = str "b") := by
  decide

/-- C9 (counterexample): `Clone` on a repository whose target path already
exists fails with the already-exists error, yet the repository's `Path`
field has been overwritten with the computed target path — it is not left
unchanged on failure. -/
theorem clone_path_mutated_counterexample :
    (Clone envExists rOld (str "/root")).2 = some .alreadyExists ∧
    (Clone envExists rOld (str "/root")).1.Path = str "/root/github.com/octo/hello" ∧
    ¬((Clone envExists rOld (str "/root")).1.Path = rOld.Path) := by
  decide

/-- C9 (amended): `Clone` fails when the target path already exists, and the
repository's `Path` field is set to the computed target
`rootDir/host/org/name` at the start of `Clone`, on success and on every
failure alike; the identity fields are never touched. -/
theorem clone_exists_fails_path_always_set (env : CloneEnv) (r : Repository) (rootDir : Str) :
    (env.targetExists = true → (Clone env r rootDir).2 ≠ none) ∧
    (Clone env r rootDir).1.Path = joinPath [rootDir, r.Host, r.Organization, r.Name] ∧
    (Clone env r rootDir).1.Host = r.Host ∧
    (Clone env r rootDir).1.Organization = r.Organization ∧
    (Clone env r rootDir).1.Name = r.Name := by
  unfold Clone
  split
  · simp_all
  · split
    · simp_all
    · split <;> simp_all

/-- C9 (witness): the amended theorem applied to the concrete
already-exists environment. -/
theorem clone_exists_fails_path_always_set_witness :
    envExists.targetExists = true ∧ (Clone envExists rOld (str "/root")).2 ≠ none :=
  ⟨rfl, (clone_exists_fails_path_always_set envExists rOld (str "/root")).1 rfl⟩

/-! ## String lemmas for the URL-parsing claim -/

theorem hasPrefixL_append (p r : Str) : hasPrefixL p (p ++ r) = true := by
  induction p with
  | nil => rfl
  | cons c cs ih => simp [hasPrefixL, ih]

theorem trimPrefixL_append (p r : Str) : trimPrefixL p (p ++ r) = r := by
  simp [trimPrefixL, hasPrefixL_append, List.drop_left]

theorem splitOnChar_not_mem {sep : Char} {l : Str} (h : sep ∉ l) :
    splitOnChar sep l = [l] := by
  induction l with
  | nil => rfl
  | cons c cs ih =>
    simp only [List.mem_cons, not_or] at h
    simp [splitOnChar, Ne.symm h.1, ih h.2]

theorem splitOnChar_append {sep : Char} {a : Str} (b : Str) (h : sep ∉ a) :
    splitOnChar sep (a ++ sep :: b) = a :: splitOnChar sep b := by
  induction a with
  | nil => simp [splitOnChar]
  | cons c cs ih =>
    simp only [List.mem_cons, not_or] at h
    simp [splitOnChar, Ne.symm h.1, ih h.2]

theorem not_mem_joinChar {c sep : Char} {xs : List Str} (hc : c ≠ sep)
    (h : ∀ x ∈ xs, c ∉ x) : c ∉ joinChar sep xs := by
  induction xs with
  | nil => simp [joinChar]
  | cons x t ih =>
    cases t with
    | nil => simpa [joinChar] using h x (by simp)
    | cons y t' =>
      simp only [joinChar, List.mem_append, List.mem_cons, not_or]
      refine ⟨h x (by simp), hc, ?_⟩
      exact ih fun z hz => h z (List.mem_cons_of_mem x hz)

theorem splitOnChar_joinChar {sep : Char} {xs : List Str} (hne : xs ≠ [])
    (h : ∀ x ∈ xs, sep ∉ x) : splitOnChar sep (joinChar sep xs) = xs := by
  induction xs with
  | nil => exact absurd rfl hne
  | cons x t ih =>
    cases t with
    | nil => simpa [joinChar] using splitOnChar_not_mem (h x (by simp))
    | cons y t' =>
      have hx : sep ∉ x := h x (by simp)
      have ht : ∀ z ∈ y :: t', sep ∉ z := fun z hz => h z (List.mem_cons_of_mem x hz)
      simp only [joinChar]
      rw [splitOnChar_append _ hx, ih (by simp) ht]

/-- C5 (amended): for every SSH-form URL `git@host:seg1/.../name` whose path
part has at least three slash-separated segments (none containing `:` or
`/`, host containing no `:`, and no trailing `.git`), `ParseURL` succeeds
and returns the FIRST path segment as the organization; the segments
between it and the final name segment are ignored. -/
theorem parseURL_ssh_multiseg_first_org (host : Str) (segs : List Str)
    (hlen : 3 ≤ segs.length)
    (hhost : ':' ∉ host)
    (hsegs : ∀ s ∈ segs, ':' ∉ s ∧ '/' ∉ s)
    (hnogit : hasSuffixL (str ".git") (str "git@" ++ host ++ ':' :: joinChar '/' segs) = false) :
    ParseURL (str "git@" ++ host ++ ':' :: joinChar '/' segs) =
      .ok { Host := host, Organization := segs.headD [], Name := segs.getLastD [] } := by
  have hsege : segs ≠ [] := by
    intro h
    rw [h] at hlen
    simp at hlen
  have hjoin : ':' ∉ joinChar '/' segs :=
    not_mem_joinChar (by decide) fun x hx => (hsegs x hx).1
  have hpre : ':' ∉ str "git@" ++ host := by
    simp only [List.mem_append, not_or]
    exact ⟨by decide, hhost⟩
  have hsplit : splitOnChar ':' (str "git@" ++ host ++ ':' :: joinChar '/' segs) =
      [str "git@" ++ host, joinChar '/' segs] := by
    rw [splitOnChar_append _ hpre, splitOnChar_not_mem hjoin]
  have hpath : splitOnChar '/' (joinChar '/' segs) = segs :=
    splitOnChar_joinChar hsege fun x hx => (hsegs x hx).2
  have hp : hasPrefixL (str "git@") (str "git@" ++ host ++ ':' :: joinChar '/' segs) = true := by
    rw [List.append_assoc]
    exact hasPrefixL_append _ _
  have hlen2 : ¬segs.length < 2 := by omega
  have htrim : trimPrefixL (str "git@") (str "git@" ++ host) = host := trimPrefixL_append _ _
  simp only [ParseURL, trimSuffixL, hnogit, Bool.false_eq_true, if_false, hp, if_true, hsplit,
    htrim, hpath, hlen2]

/-- C5 (amended, witness): the amended theorem at the concrete URL
`git@github.com:a/b/c`. -/
theorem parseURL_ssh_multiseg_first_org_witness :
    ParseURL (str "git@" ++ str "github.com" ++ ':' :: joinChar '/' [str "a", str "b", str "c"]) =
      .ok { Host := str "github.com", Organization := str "a", Name := str "c" } :=
  parseURL_ssh_multiseg_first_org (str "github.com") [str "a", str "b", str "c"]
    (by decide) (by decide) (by decide) (by decide)

/-- C4: for every non-blank, well-formed branch-listing line, the
`BranchInfo` produced by `parseBranchInfo` is in exactly one of the three
tracking states {non-empty live tracking ref, no-remote-tracking,
remote-gone}. -/
theorem parseBranchInfo_tracking_state_exclusive (line : Str) (b : BranchInfo)
    (hp : parseBranchInfo line = some b)
    (hwf : wellFormedBranchLine line = true) :
    trackingStateCount b = 1 := by
  unfold wellFormedBranchLine lineTrackInfo at hwf
  cases hpre : preprocessLine line with
  | none => simp [parseBranchInfo, hpre] at hp
  | some t =>
    obtain ⟨cur, name, rest⟩ := t
    simp only [parseBranchInfo, hpre] at hp
    simp only [hpre] at hwf
    cases hbr : bracketContent rest with
    | none =>
      simp only [hbr, Option.some.injEq] at hp
      subst hp
      simp [trackingStateCount]
    | some ti =>
      simp only [hbr] at hp
      simp only [hbr] at hwf
      by_cases hg : containsSub (str "gone") ti = true
      · simp only [hg, if_true, Option.some.injEq] at hp
        subst hp
        simp [trackingStateCount]
      · simp only [hg, if_false, Bool.not_eq_true] at hp
        simp only [Bool.not_eq_true] at hg
        simp only [hg, Bool.false_or] at hwf
        cases hc : indexOfChar ti ':' with
        | some c =>
          simp only [hc, Bool.false_eq_true, if_false, Option.some.injEq] at hp
          subst hp
          have hne : trimSpace (ti.take c) ≠ [] := by
            simp only [beforeColon, hc] at hwf
            simpa [List.isEmpty_iff] using hwf
          simp [trackingStateCount, hne]
        | none =>
          simp only [hc, Bool.false_eq_true, if_false, Option.some.injEq] at hp
          subst hp
          have hne : trimSpace ti ≠ [] := by
            simp only [beforeColon, hc] at hwf
            simpa [List.isEmpty_iff] using hwf
          simp [trackingStateCount, hne]

/-- C4 (witness): the exclusivity theorem at a concrete live-tracking line. -/
theorem parseBranchInfo_tracking_state_exclusive_witness :
    trackingStateCount { Name := str "dev", RemoteTracking := str "origin/dev", Behind := 2 } = 1 :=
  parseBranchInfo_tracking_state_exclusive
    (str "  dev 1a2b3c [origin/dev: behind 2] msg") _ (by decide) (by decide)

/-- A clean repository whose branch `fish` tracks the live upstream
`origin/gone-fishing`: the substring `gone` in the ref name makes the
parser mark it remote-gone. -/
def envGone : GitEnv :=
  { pathExists := true
    exec := fun c =>
      if c = cUnc then .ok []
      else if c = cBvv then
        .ok (str "* main 1a2b3c msg\n  fish 1a2b3c [origin/gone-fishing: ahead 1] msg")
      else if c = cStash then .ok []
      else if c = cShowMain then .ok []
      else if c = cHead then .ok (str "main")
      else .error () }

/-- C10: whenever the bracketed segment of a branch line contains `gone`
anywhere as a substring, `parseBranchInfo` marks the branch remote-gone,
records no tracking ref and no ahead/behind counts; in particular a branch
whose live tracking ref is named `origin/gone-fishing` is parsed as
remote-gone and is therefore offered as a gone-remote pruning candidate. -/
theorem parseBranchInfo_gone_substring :
    (∀ line b ti, parseBranchInfo line = some b → lineTrackInfo line = some ti →
      containsSub (str "gone") ti = true →
      b.RemoteGone = true ∧ b.RemoteTracking = [] ∧ b.Ahead = 0 ∧ b.Behind = 0 ∧
        b.NoRemoteTracking = false) ∧
    (PruneBranches envGone true false true).1.1 = some [str "fish"] := by
  constructor
  · intro line b ti hp ht hg
    unfold lineTrackInfo at ht
    cases hpre : preprocessLine line with
    | none => simp [hpre] at ht
    | some t =>
      obtain ⟨cur, name, rest⟩ := t
      simp only [hpre] at ht
      simp only [parseBranchInfo, hpre, ht, hg, if_true, Option.some.injEq] at hp
      subst hp
      simp
  · decide

/-- C10 (witness): the substring theorem at the `origin/gone-fishing` line. -/
theorem parseBranchInfo_gone_substring_witness :
    ({ Name := str "fish", RemoteGone := true } : BranchInfo).RemoteGone = true ∧
    ({ Name := str "fish", RemoteGone := true } : BranchInfo).RemoteTracking = [] :=
  ⟨(parseBranchInfo_gone_substring.1 (str "  fish 1a2b3c [origin/gone-fishing: ahead 1] msg")
      { Name := str "fish", RemoteGone := true } (str "origin/gone-fishing: ahead 1")
      (by decide) (by decide) (by decide)).1,
   (parseBranchInfo_gone_substring.1 (str "  fish 1a2b3c [origin/gone-fishing: ahead 1] msg")
      { Name := str "fish", RemoteGone := true } (str "origin/gone-fishing: ahead 1")
      (by decide) (by decide) (by decide)).2.1⟩

/-! ## Command-log lemmas for the prune claims -/

theorem statusLog_cmds (env : GitEnv) :
    ∀ c ∈ (Status env).2, c = cUnc ∨ c = cBvv ∨ c = cStash := by
  intro c hc
  by_cases hpe : env.pathExists = false
  · simp [Status, hpe] at hc
  · rcases hu : env.exec cUnc with _ | uout
    · simp [Status, hpe, hu] at hc
      tauto
    · rcases hb : env.exec cBvv with _ | bout
      · simp [Status, hpe, hu, hb] at hc
        tauto
      · rcases hs : env.exec cStash with _ | sout
        · simp [Status, hpe, hu, hb, hs] at hc
          tauto
        · simp [Status, hpe, hu, hb, hs] at hc
          tauto

theorem gdbLog_cmds (env : GitEnv) :
    ∀ c ∈ (GetDefaultBranch env).2, c = cShowMain ∨ c = cShowMaster ∨ c = cHead := by
  intro c hc
  rcases h1 : env.exec cShowMain with _ | o1
  · rcases h2 : env.exec cShowMaster with _ | o2
    · simp [GetDefaultBranch, GetCurrentBranch, h1, h2] at hc
      tauto
    · simp [GetDefaultBranch, h1, h2] at hc
      tauto
  · simp [GetDefaultBranch, h1] at hc
    tauto

theorem pruneStep_foldl_log (env : GitEnv) (db : Str) (g m : Bool) :
    ∀ (bs : List BranchInfo) (acc : List Str × List Cmd) (c : Cmd),
      c ∈ (bs.foldl (pruneStep env db g m) acc).2 → c ∈ acc.2 ∨ c = cMerged db := by
  intro bs
  induction bs with
  | nil => exact fun acc c hc => Or.inl hc
  | cons b rest ih =>
    intro acc c hc
    rcases ih _ c hc with h | h
    · unfold pruneStep at h
      split at h
      · exact Or.inl h
      · split at h
        · rcases List.mem_append.mp h with h' | h'
          · exact Or.inl h'
          · simp at h'
            exact Or.inr h'
        · exact Or.inl h
    · exact Or.inr h

theorem identifyLog_cmds (env : GitEnv) (st : RepositoryStatus) (g m : Bool) :
    ∀ c ∈ (identifyBranchesToPrune env st g m).2, isDeleteCmd c = false := by
  intro c hc
  rcases hD : GetDefaultBranch env with ⟨dr, dlg⟩
  have hdlg : ∀ x ∈ dlg, x = cShowMain ∨ x = cShowMaster ∨ x = cHead := by
    intro x hx
    exact gdbLog_cmds env x (by rw [hD]; exact hx)
  cases dr with
  | error e =>
    simp only [identifyBranchesToPrune, hD] at hc
    rcases hdlg c hc with rfl | rfl | rfl <;> rfl
  | ok db =>
    simp only [identifyBranchesToPrune, hD] at hc
    rcases List.mem_append.mp hc with h | h
    · rcases hdlg c h with rfl | rfl | rfl <;> rfl
    · rcases pruneStep_foldl_log env db g m st.Branches ([], []) c h with h' | rfl
      · simp at h'
      · rfl

/-- C8: for every repository state, `PruneBranches` with `dryRun = true`
issues no branch-deletion command to the executor, and its returned
candidate list equals the one `PruneBranches` with `dryRun = false` on the
same state returns — the very list the non-dry-run attempts to delete
(the source returns the full candidate list even when a deletion fails
partway through). -/
theorem pruneBranches_dryRun_no_delete_same_candidates (env : GitEnv) (g m : Bool) :
    (∀ c ∈ (PruneBranches env g m true).2, isDeleteCmd c = false) ∧
    (PruneBranches env g m true).1.1 = (PruneBranches env g m false).1.1 := by
  have hslg : ∀ x ∈ (Status env).2, isDeleteCmd x = false := by
    intro x hx
    rcases statusLog_cmds env x hx with rfl | rfl | rfl <;> rfl
  rcases hS : Status env with ⟨sr, slg⟩
  cases sr with
  | error e =>
    constructor
    · intro c hc
      simp only [PruneBranches, hS] at hc
      exact hslg c (by rw [hS]; exact hc)
    · simp [PruneBranches, hS]
  | ok st =>
    rcases hI : identifyBranchesToPrune env st g m with ⟨ir, ilg⟩
    cases ir with
    | error e =>
      constructor
      · intro c hc
        simp only [PruneBranches, hS, hI] at hc
        rcases List.mem_append.mp hc with h | h
        · exact hslg c (by rw [hS]; exact h)
        · exact identifyLog_cmds env st g m c (by rw [hI]; exact h)
      · simp [PruneBranches, hS, hI]
    | ok bs =>
      constructor
      · intro c hc
        simp only [PruneBranches, hS, hI, Bool.not_true, Bool.false_and,
          Bool.false_eq_true, if_false] at hc
        rcases List.mem_append.mp hc with h | h
        · exact hslg c (by rw [hS]; exact h)
        · exact identifyLog_cmds env st g m c (by rw [hI]; exact h)
      · simp only [PruneBranches, hS, hI, Bool.not_true, Bool.false_and, Bool.not_false,
          Bool.true_and, Bool.false_eq_true, if_false]
        by_cases hbs : bs.isEmpty <;> simp [hbs]

/-- C8 (witness): the dry-run theorem at the concrete environment `envA`. -/
theorem pruneBranches_dryRun_no_delete_same_candidates_witness :
    isDeleteCmd cUnc = false ∧
    (PruneBranches envA true false true).1.1 = (PruneBranches envA true false false).1.1 :=
  ⟨(pruneBranches_dryRun_no_delete_same_candidates envA true false).1 cUnc (by decide),
   (pruneBranches_dryRun_no_delete_same_candidates envA true false).2⟩

/-! ## Membership lemmas for the prune-candidate fold -/

theorem mem_pruneStep (env : GitEnv) (db : Str) (g m : Bool)
    (acc : List Str × List Cmd) (b : BranchInfo) (name : Str)
    (h : name ∈ (pruneStep env db g m acc b).1) :
    name ∈ acc.1 ∨ (b.Current = false ∧ b.Name ≠ db ∧ name = b.Name) := by
  simp only [pruneStep] at h
  split at h
  · exact Or.inl h
  · rename_i hcond
    have hcur : b.Current = false := by
      cases hcb : b.Current
      · rfl
      · exact absurd (by simp [hcb]) hcond
    have hdb : b.Name ≠ db := by
      intro he
      exact hcond (by simp [he])
    split at h
    · split at h
      · rcases List.mem_append.mp h with h' | h'
        · exact Or.inl h'
        · simp at h'
          exact Or.inr ⟨hcur, hdb, h'⟩
      · exact Or.inl h
    · split at h
      · rcases List.mem_append.mp h with h' | h'
        · exact Or.inl h'
        · simp at h'
          exact Or.inr ⟨hcur, hdb, h'⟩
      · exact Or.inl h

theorem mem_pruneStep_foldl (env : GitEnv) (db : Str) (g m : Bool) :
    ∀ (bs : List BranchInfo) (acc : List Str × List Cmd) (name : Str),
      name ∈ (bs.foldl (pruneStep env db g m) acc).1 →
      name ∈ acc.1 ∨ ∃ b, b ∈ bs ∧ b.Current = false ∧ b.Name ≠ db ∧ name = b.Name := by
  intro bs
  induction bs with
  | nil => exact fun acc name h => Or.inl h
  | cons b rest ih =>
    intro acc name h
    rcases ih _ name h with h' | ⟨b', hb', hcur, hdb, hname⟩
    · rcases mem_pruneStep env db g m acc b name h' with h'' | ⟨hcur, hdb, hname⟩
      · exact Or.inl h''
      · exact Or.inr ⟨b, by simp, hcur, hdb, hname⟩
    · exact Or.inr ⟨b', by simp [hb'], hcur, hdb, hname⟩

/-- C1: for every repository state and every combination of the goneOnly,
mergedOnly and dryRun flags, the branch-name list returned by
`PruneBranches` contains neither the name of any currently checked-out
branch nor the branch `GetDefaultBranch` returns (branch names are listed
once each by `git branch -vv`, whence the distinctness hypothesis). -/
theorem pruneBranches_excludes_current_and_default (env : GitEnv) (g m d : Bool)
    (st : RepositoryStatus) (db : Str) (L : List Str)
    (hst : (Status env).1 = .ok st)
    (hnd : (st.Branches.map (fun b => b.Name)).Nodup)
    (hdb : (GetDefaultBranch env).1 = .ok db)
    (hL : (PruneBranches env g m d).1.1 = some L) :
    db ∉ L ∧ ∀ b ∈ st.Branches, b.Current = true → b.Name ∉ L := by
  rcases hS : Status env with ⟨sr, slg⟩
  rw [hS] at hst
  simp only at hst
  subst hst
  simp only [PruneBranches, hS] at hL
  rcases hI : identifyBranchesToPrune env st g m with ⟨ir, ilg⟩
  simp only [hI] at hL
  cases ir with
  | error e => simp at hL
  | ok bs =>
    have hbsL : bs = L := by
      by_cases hd : (!d && !bs.isEmpty) = true
      · simp only [hd, if_true] at hL
        exact Option.some.inj hL
      · simp only [hd, if_false, Bool.false_eq_true] at hL
        exact Option.some.inj hL
    subst hbsL
    rcases hD : GetDefaultBranch env with ⟨dr, dlg⟩
    rw [hD] at hdb
    simp only at hdb
    subst hdb
    simp only [identifyBranchesToPrune, hD] at hI
    have hfold : bs = (st.Branches.foldl (pruneStep env db g m) ([], [])).1 := by
      have := congrArg Prod.fst hI
      simp only at this
      exact (Except.ok.inj this).symm
    have key : ∀ name ∈ bs, ∃ b, b ∈ st.Branches ∧ b.Current = false ∧ b.Name ≠ db ∧
        name = b.Name := by
      intro name hm
      rw [hfold] at hm
      rcases mem_pruneStep_foldl env db g m st.Branches ([], []) name hm with h | h
      · simp at h
      · exact h
    constructor
    · intro hmem
      obtain ⟨b', _, _, hne, heq⟩ := key db hmem
      exact hne heq.symm
    · intro b hb hbcur hmem
      obtain ⟨b', hb', hcur', _, heq⟩ := key b.Name hmem
      have : b' = b :=
        List.inj_on_of_nodup_map hnd hb' hb heq.symm
      rw [this] at hcur'
      rw [hcur'] at hbcur
      exact Bool.false_ne_true hbcur

/-- C1 (witness): the exclusion theorem at the concrete environment `envA`
(current branch `main`, default branch `main`, prune candidates `[feat]`). -/
theorem pruneBranches_excludes_current_and_default_witness :
    str "main" ∉ [str "feat"] ∧
    ∀ b ∈ stA.Branches, b.Current = true → b.Name ∉ [str "feat"] :=
  pruneBranches_excludes_current_and_default envA true false true stA (str "main") [str "feat"]
    (by decide) (by decide) (by decide) (by decide)

/-! ## Association-list and update-loop lemmas -/

theorem processBranch_key (env : GitEnv) (orig : Str) (b : BranchInfo) (k : Str)
    (v : BranchUpdateResult) (h : (processBranch env orig b).2 = some (k, v)) :
    k = b.Name := by
  simp only [processBranch] at h
  repeat' split at h
  all_goals
    first
      | exact Option.noConfusion h
      | (simp only [Option.some.injEq, Prod.mk.injEq] at h
         exact h.1.symm)

theorem lookupAssoc_insertAssoc_self {α : Type} (m : List (Str × α)) (k : Str) (v : α) :
    lookupAssoc (insertAssoc m k v) k = some v := by
  induction m with
  | nil => simp [insertAssoc, lookupAssoc]
  | cons kv rest ih =>
    obtain ⟨k', v'⟩ := kv
    by_cases hk : k' = k
    · simp [insertAssoc, lookupAssoc, hk]
    · simp [insertAssoc, lookupAssoc, hk, ih]

theorem lookupAssoc_insertAssoc_ne {α : Type} (m : List (Str × α)) (k k' : Str) (v : α)
    (hne : k' ≠ k) : lookupAssoc (insertAssoc m k v) k' = lookupAssoc m k' := by
  induction m with
  | nil => simp [insertAssoc, lookupAssoc, Ne.symm hne]
  | cons kv rest ih =>
    obtain ⟨k0, v0⟩ := kv
    by_cases h0 : k0 = k
    · subst h0
      simp [insertAssoc, lookupAssoc, Ne.symm hne]
    · by_cases h1 : k0 = k'
      · subst h1
        simp [insertAssoc, lookupAssoc, h0]
      · simp [insertAssoc, lookupAssoc, h0, h1, ih]

theorem updateStep_foldl_lookup_notmem (env : GitEnv) (orig : Str) :
    ∀ (bs : List BranchInfo) (acc : List (Str × BranchUpdateResult) × Bool × List Cmd)
      (name : Str), name ∉ bs.map (fun b => b.Name) →
      lookupAssoc (bs.foldl (updateStep env orig) acc).1 name = lookupAssoc acc.1 name := by
  intro bs
  induction bs with
  | nil => exact fun acc name _ => rfl
  | cons b rest ih =>
    intro acc name hn
    simp only [List.map_cons, List.mem_cons, not_or] at hn
    rw [List.foldl_cons, ih _ name hn.2]
    rcases hpb : processBranch env orig b with ⟨cmds, rec⟩
    cases rec with
    | none => simp [updateStep, hpb]
    | some kv =>
      obtain ⟨k, v⟩ := kv
      have hk : k = b.Name := processBranch_key env orig b k v (by rw [hpb])
      subst hk
      simp [updateStep, hpb, lookupAssoc_insertAssoc_ne _ _ _ _ hn.1]

theorem updateStep_foldl_lookup_mem (env : GitEnv) (orig : Str) :
    ∀ (bs : List BranchInfo) (acc : List (Str × BranchUpdateResult) × Bool × List Cmd)
      (b : BranchInfo) (v : BranchUpdateResult),
      b ∈ bs → ((bs.map (fun x => x.Name)).Nodup) →
      (processBranch env orig b).2 = some (b.Name, v) →
      lookupAssoc (bs.foldl (updateStep env orig) acc).1 b.Name = some v := by
  intro bs
  induction bs with
  | nil =>
    intro acc b v h
    simp at h
  | cons b0 rest ih =>
    intro acc b v hmem hnd hpb
    simp only [List.map_cons, List.nodup_cons] at hnd
    rcases List.mem_cons.mp hmem with rfl | hmem'
    · rw [List.foldl_cons, updateStep_foldl_lookup_notmem env orig rest _ b.Name hnd.1]
      rcases hpb2 : processBranch env orig b with ⟨cmds, rec⟩
      rw [hpb2] at hpb
      simp only at hpb
      subst hpb
      simp [updateStep, hpb2, lookupAssoc_insertAssoc_self]
    · exact ih _ b v hmem' hnd.2 hpb

theorem updateStep_foldl_log (env : GitEnv) (orig : Str) :
    ∀ (bs : List BranchInfo) (acc : List (Str × BranchUpdateResult) × Bool × List Cmd),
      (bs.foldl (updateStep env orig) acc).2.2 =
        acc.2.2 ++ (bs.map (fun b => (processBranch env orig b).1)).flatten := by
  intro bs
  induction bs with
  | nil =>
    intro acc
    simp
  | cons b rest ih =>
    intro acc
    rw [List.foldl_cons, ih]
    rcases hpb : processBranch env orig b with ⟨cmds, rec⟩
    cases rec with
    | none => simp [updateStep, hpb]
    | some kv => simp [updateStep, hpb]

/-- Characterization of `Update` with `fetchOnly = false` once all its
pre-steps succeed on a clean tree: the returned pair and the command log in
terms of the per-branch loop fold. -/
theorem update_reaches_loop (env : GitEnv) (prune : Bool) (orig : Str)
    (st : RepositoryStatus) (bout fo : Str)
    (A : List (Str × BranchUpdateResult) × Bool × List Cmd)
    (h1 : (GetCurrentBranch env).1 = .ok orig)
    (h2 : env.exec (cFetch prune) = .ok fo)
    (h3 : (Status env).1 = .ok st)
    (h4 : st.HasUncommittedChanges = false)
    (h5 : env.exec cBvv = .ok bout)
    (hA : A = (parseBranchLines bout).foldl (updateStep env orig) ([], false, [])) :
    (Update env false prune).1 =
      (if orig.isEmpty then (some ⟨A.1, A.2.1⟩, none)
       else
         match env.exec (cCheckout orig) with
         | .error _ => (some ⟨A.1, true⟩, some .restoreFailed)
         | .ok _ => (some ⟨A.1, A.2.1⟩, none)) ∧
    (Update env false prune).2 =
      [cHead] ++ [cFetch prune] ++ (Status env).2 ++ [cBvv] ++ A.2.2 ++
        (if orig.isEmpty then [] else [cCheckout orig]) := by
  rcases hG : GetCurrentBranch env with ⟨gr, glg⟩
  have hglg : glg = [cHead] := by
    have h : (GetCurrentBranch env).2 = [cHead] := rfl
    rw [hG] at h
    exact h
  rw [hG] at h1
  simp only at h1
  subst h1
  rcases hS : Status env with ⟨sr, slg⟩
  rw [hS] at h3
  simp only at h3
  subst h3
  subst hglg
  subst hA
  constructor
  · simp only [Update, hG, h2, hS, h4, Bool.false_eq_true, if_false, h5]
    by_cases ho : orig.isEmpty
    · simp [ho]
    · rcases hco : env.exec (cCheckout orig) with _ | co <;> simp [ho, hco]
  · simp only [Update, hG, h2, hS, h4, Bool.false_eq_true, if_false, h5]
    by_cases ho : orig.isEmpty
    · simp [ho]
    · rcases hco : env.exec (cCheckout orig) with _ | co <;> simp [ho, hco]

/-- C7: in `Update` with `fetchOnly = false`, once the pre-steps succeed on
a clean tree and the recorded current branch is non-empty, a checkout of
that original branch is always attempted after the per-branch loop —
whatever happened inside the loop — and if that restore checkout fails,
`Update` returns a non-nil error and an `UpdateResult` whose `HasErrors`
flag is true and which still carries all accumulated per-branch results. -/
theorem update_restore_always_attempted (env : GitEnv) (prune : Bool) (orig : Str)
    (st : RepositoryStatus) (bout fo : Str)
    (h1 : (GetCurrentBranch env).1 = .ok orig)
    (h2 : env.exec (cFetch prune) = .ok fo)
    (h3 : (Status env).1 = .ok st)
    (h4 : st.HasUncommittedChanges = false)
    (h5 : env.exec cBvv = .ok bout)
    (hne : orig ≠ []) :
    cCheckout orig ∈ (Update env false prune).2 ∧
    (env.exec (cCheckout orig) = .error () →
      (Update env false prune).1 =
        (some ⟨((parseBranchLines bout).foldl (updateStep env orig) ([], false, [])).1, true⟩,
         some .restoreFailed)) := by
  obtain ⟨hres, hlog⟩ := update_reaches_loop env prune orig st bout fo _ h1 h2 h3 h4 h5 rfl
  have ho : orig.isEmpty = false := by
    cases orig
    · exact absurd rfl hne
    · rfl
  constructor
  · rw [hlog]
    simp [ho]
  · intro hco
    rw [hres]
    simp [ho, hco]

/-- C7 (witness): the restore theorem at a concrete environment where the
`dev` branch updates fine but checking `main` back out fails. -/
theorem update_restore_always_attempted_witness :
    cCheckout (str "main") ∈ (Update envRestore false false).2 ∧
    (Update envRestore false false).1 =
      (some ⟨[(str "dev", ⟨devB, none⟩)], true⟩, some .restoreFailed) := by
  have h := update_restore_always_attempted envRestore false (str "main") stA boutA []
    (by decide) (by decide) (by decide) (by decide) (by decide) (by decide)
  exact ⟨h.1, (h.2 (by decide)).trans (by decide)⟩

/-- C2: in `Update` with `fetchOnly = false`, for every parsed branch with a
live upstream (neither no-remote-tracking nor remote-gone): when it is at
least one commit behind, a checkout command for it is issued exactly when
it is not the originally recorded current branch, a pull with rebase
follows unless that checkout failed, and a per-branch result is recorded
under its name; when it is not behind, its result is recorded with a nil
error and no checkout or pull command is issued for it.  All commands a
branch's step issues appear in `Update`'s command log. -/
theorem update_live_branch_behavior (env : GitEnv) (prune : Bool) (orig : Str)
    (st : RepositoryStatus) (bout fo : Str)
    (h1 : (GetCurrentBranch env).1 = .ok orig)
    (h2 : env.exec (cFetch prune) = .ok fo)
    (h3 : (Status env).1 = .ok st)
    (h4 : st.HasUncommittedChanges = false)
    (h5 : env.exec cBvv = .ok bout)
    (hnd : ((parseBranchLines bout).map (fun b => b.Name)).Nodup)
    (ur : UpdateResult) (hur : (Update env false prune).1.1 = some ur)
    (b : BranchInfo) (hb : b ∈ parseBranchLines bout)
    (hnr : b.NoRemoteTracking = false) (hng : b.RemoteGone = false) :
    (b.Behind ≤ 0 →
      lookupAssoc ur.BranchUpdateResults b.Name = some ⟨b, none⟩ ∧
      (processBranch env orig b).1 = []) ∧
    (1 ≤ b.Behind →
      (lookupAssoc ur.BranchUpdateResults b.Name).isSome = true ∧
      (b.Name = orig → (processBranch env orig b).1 = [cPull]) ∧
      (b.Name ≠ orig → cCheckout b.Name ∈ (processBranch env orig b).1) ∧
      ((b.Name = orig ∨ env.exec (cCheckout b.Name) ≠ .error ()) →
        cPull ∈ (processBranch env orig b).1)) ∧
    (∀ c ∈ (processBranch env orig b).1, c ∈ (Update env false prune).2) := by
  obtain ⟨hres, hlog⟩ := update_reaches_loop env prune orig st bout fo _ h1 h2 h3 h4 h5 rfl
  have hurA : ur.BranchUpdateResults =
      ((parseBranchLines bout).foldl (updateStep env orig) ([], false, [])).1 := by
    rw [hres] at hur
    by_cases ho : orig.isEmpty
    · simp only [ho, if_true] at hur
      obtain rfl : _ = ur := Option.some.inj hur
      rfl
    · simp only [ho, Bool.false_eq_true, if_false] at hur
      rcases hco : env.exec (cCheckout orig) with u | co <;> rw [hco] at hur <;>
        simp only at hur
      · obtain rfl : _ = ur := Option.some.inj hur
        rfl
      · obtain rfl : _ = ur := Option.some.inj hur
        rfl
  refine ⟨?_, ?_, ?_⟩
  · intro hbe
    have hpb : processBranch env orig b = ([], some (b.Name, ⟨b, none⟩)) := by
      simp [processBranch, hnr, hng, hbe]
    constructor
    · rw [hurA]
      exact updateStep_foldl_lookup_mem env orig _ _ b _ hb hnd (by rw [hpb])
    · rw [hpb]
  · intro hbe
    have hnbe : ¬b.Behind ≤ 0 := by omega
    by_cases hbo : b.Name = orig
    · have hpb2 : (processBranch env orig b).1 = [cPull] ∧
          ∃ v, (processBranch env orig b).2 = some (b.Name, v) := by
        rcases hp : env.exec cPull with u | po <;>
          simp [processBranch, hnr, hng, hnbe, hbo, hp]
      obtain ⟨v, hv⟩ := hpb2.2
      refine ⟨?_, fun _ => hpb2.1, fun hn => absurd hbo hn, fun _ => by rw [hpb2.1]; simp⟩
      rw [hurA, updateStep_foldl_lookup_mem env orig _ _ b v hb hnd hv]
      rfl
    · rcases hc : env.exec (cCheckout b.Name) with u | co
      · cases u
        have hpb2 : processBranch env orig b =
            ([cCheckout b.Name], some (b.Name, ⟨b, some .checkoutFailed⟩)) := by
          simp [processBranch, hnr, hng, hnbe, hbo, hc]
        refine ⟨?_, fun he => absurd he hbo, fun _ => by rw [hpb2]; simp, ?_⟩
        · rw [hurA, updateStep_foldl_lookup_mem env orig _ _ b _ hb hnd (by rw [hpb2])]
          rfl
        · intro hok
          rcases hok with he | hne'
          · exact absurd he hbo
          · exact absurd rfl hne'
      · have hpb1 : (processBranch env orig b).1 = [cCheckout b.Name, cPull] ∧
            ∃ v, (processBranch env orig b).2 = some (b.Name, v) := by
          rcases hp : env.exec cPull with u | po <;>
            simp [processBranch, hnr, hng, hnbe, hbo, hc, hp]
        obtain ⟨v, hv⟩ := hpb1.2
        refine ⟨?_, fun he => absurd he hbo, fun _ => by rw [hpb1.1]; simp,
          fun _ => by rw [hpb1.1]; simp⟩
        rw [hurA, updateStep_foldl_lookup_mem env orig _ _ b v hb hnd hv]
        rfl
  · intro c hc
    rw [hlog]
    have hfl : c ∈ ((parseBranchLines bout).map (fun x => (processBranch env orig x).1)).flatten :=
      List.mem_flatten.mpr ⟨(processBranch env orig b).1, List.mem_map_of_mem _ hb, hc⟩
    have hAl : ((parseBranchLines bout).foldl (updateStep env orig) ([], false, [])).2.2 =
        ((parseBranchLines bout).map (fun x => (processBranch env orig x).1)).flatten := by
      rw [updateStep_foldl_log]
      simp
    simp only [hAl, List.append_assoc, List.mem_append]
    tauto

/-- C2 (witness): the live-branch theorem at `envA`, whose branch `dev` is
two commits behind: its result is recorded and its step issued the
checkout and the pull. -/
theorem update_live_branch_behavior_witness :
    (lookupAssoc urA.BranchUpdateResults (str "dev")).isSome = true ∧
    cCheckout (str "dev") ∈ (processBranch envA (str "main") devB).1 ∧
    cPull ∈ (processBranch envA (str "main") devB).1 := by
  have h := update_live_branch_behavior envA false (str "main") stA boutA []
    (by decide) (by decide) (by decide) (by decide) (by decide) (by decide)
    urA (by decide) devB (by decide) (by decide) (by decide)
  have h2 := h.2.1 (by decide)
  exact ⟨h2.1, h2.2.2.1 (by decide), h2.2.2.2 (Or.inr (by decide))⟩

end GitManager
